import Mathlib

/-!
Verification of the `perpetual-ome` order-matching engine against its
specification.  The Rust sources `src/state.rs` and `src/main.rs` are embedded
shallowly below; the `Book` type and its `place` algorithm live in `book.rs`,
which is not part of the published sources, so they are modelled from the
specification (each such definition carries a doc comment saying so).

Machine integers: prices, quantities and sequence numbers are fixed-point
decimals in the source, represented here as `Nat` (the source never needs
negative values and overflow is immaterial to the claims).  A 20-byte market
address is represented as a `Nat`.
-/

/-- A 20-byte on-chain address identifying a market.  Opaque to the engine;
used only as a key. -/
abbrev Address := Nat

/-- Modelled from the spec: order side, one of BID or ASK. -/
inductive Side where
  | bid
  | ask
deriving DecidableEq, Repr

/-- Modelled from the spec: order status, one of OPEN, PARTIAL, FILLED,
CANCELLED. -/
inductive OrderStatus where
  | opened
  | partFilled
  | filled
  | cancelled
deriving DecidableEq, Repr

/-- Modelled from the spec: an order record (spec section 3). -/
structure Order where
  id : Nat
  user : Address
  market : Address
  side : Side
  price : Nat
  amount : Nat
  remaining : Nat
  status : OrderStatus
  created_at : Nat
  signature : String
deriving DecidableEq, Repr

/-- Modelled from the spec: a price ladder is an ordered map from price to a
FIFO queue of live orders; embedded as a list of levels in iteration order
(best price first). -/
abbrev Ladder := List (Nat × List Order)

/-- Modelled from the spec: a single market's order book (spec section 3):
market identifier, two ladders, the OrderID index and the time-priority
sequence counter.  `book.rs` is not in the published sources. -/
structure Book where
  market : Address
  bids : Ladder
  asks : Ladder
  index : List (Nat × Side × Nat)
  seq : Nat
deriving DecidableEq, Repr

/-- Modelled from the spec: `Book::new(market)` yields an empty book whose
identity is the market address. -/
def Book.new (market : Address) : Book :=
  { market := market, bids := [], asks := [], index := [], seq := 0 }

/-!
The engine state (`src/state.rs`).  The Rust `HashMap<Address, Book>` is
embedded as an association list whose representation invariant is that keys
are pairwise distinct; `hmLookup`, `hmInsert` and `hmRemove` give the
observable `get` / `insert` / `remove` behaviour of `HashMap`.
-/

/-- `HashMap::get`: first (under the invariant: only) binding of the key. -/
def hmLookup (m : Address) : List (Address × Book) → Option Book
  | [] => none
  | (k, b) :: rest => if k = m then some b else hmLookup m rest

/-- `HashMap::insert`: replaces the binding if the key is present, otherwise
adds a fresh binding. -/
def hmInsert (m : Address) (b : Book) : List (Address × Book) → List (Address × Book)
  | [] => [(m, b)]
  | (k, b') :: rest =>
    if k = m then (m, b) :: rest else (k, b') :: hmInsert m b rest

/-- `HashMap::remove`: deletes the binding of the key (the first one; under
the invariant there is at most one). -/
def hmRemove (m : Address) : List (Address × Book) → List (Address × Book)
  | [] => []
  | (k, b') :: rest =>
    if k = m then rest else (k, b') :: hmRemove m rest

/-- The `HashMap` representation invariant: keys are pairwise distinct. -/
def NodupKeys (l : List (Address × Book)) : Prop :=
  (l.map Prod.fst).Nodup

instance (l : List (Address × Book)) : Decidable (NodupKeys l) := by
  unfold NodupKeys; infer_instance

/-- `OmeState` (src/state.rs lines 12-15): the entire state of the OME, a map
from market address to order book. -/
structure OmeState where
  books : List (Address × Book)
deriving DecidableEq, Repr

/-- `OmeState::new` (src/state.rs lines 19-23): empty books map. -/
def OmeState.new : OmeState := { books := [] }

/-- `OmeState::book` (src/state.rs lines 44-46): `self.books.get(&market)`. -/
def OmeState.book (s : OmeState) (market : Address) : Option Book :=
  hmLookup market s.books

/-- `OmeState::book_mut` (src/state.rs lines 49-51): `self.books.get_mut`.
In this functional embedding a mutable borrow is observed through the book it
yields, so `book_mut` returns the same lookup result as `book`. -/
def OmeState.book_mut (s : OmeState) (market : Address) : Option Book :=
  hmLookup market s.books

/-- `OmeState::add_book` (src/state.rs lines 54-56):
`self.books.insert(*book.market(), book)`.  Note the source inserts
unconditionally and returns nothing. -/
def OmeState.add_book (s : OmeState) (book : Book) : OmeState :=
  { books := hmInsert book.market book s.books }

/-- `OmeState::remove_book` (src/state.rs lines 59-61):
`self.books.remove(&market)`, returning the removed book (if any) and the
updated state. -/
def OmeState.remove_book (s : OmeState) (market : Address) : Option Book × OmeState :=
  (hmLookup market s.books, { books := hmRemove market s.books })

/-!  Basic lemmas about the association-list map operations.  -/

theorem hmLookup_hmInsert_self (m : Address) (b : Book) (l : List (Address × Book)) :
    hmLookup m (hmInsert m b l) = some b := by
  induction l with
  | nil => simp [hmInsert, hmLookup]
  | cons kb rest ih =>
    obtain ⟨k, b'⟩ := kb
    by_cases hk : k = m
    · simp [hmInsert, hmLookup, hk]
    · simp [hmInsert, hmLookup, hk, ih]

theorem hmLookup_hmInsert_other (m m' : Address) (b : Book) (l : List (Address × Book))
    (h : m' ≠ m) : hmLookup m' (hmInsert m b l) = hmLookup m' l := by
  induction l with
  | nil =>
    have hne : m ≠ m' := fun h' => h h'.symm
    simp [hmInsert, hmLookup, hne]
  | cons kb rest ih =>
    obtain ⟨k, b'⟩ := kb
    by_cases hk : k = m
    · subst hk
      have hne : k ≠ m' := fun h' => h h'.symm
      simp [hmInsert, hmLookup, hne]
    · by_cases hk' : k = m'
      · simp [hmInsert, hmLookup, hk, hk', h]
      · simp [hmInsert, hmLookup, hk, hk', ih]

theorem hmLookup_none_of_not_mem (m : Address) (l : List (Address × Book))
    (h : m ∉ l.map Prod.fst) : hmLookup m l = none := by
  induction l with
  | nil => simp [hmLookup]
  | cons kb rest ih =>
    obtain ⟨k, b'⟩ := kb
    simp only [List.map_cons, List.mem_cons] at h
    push_neg at h
    have hne : k ≠ m := fun h' => h.1 h'.symm
    simp [hmLookup, hne, ih h.2]

theorem hmLookup_hmRemove_self (m : Address) (l : List (Address × Book))
    (h : NodupKeys l) : hmLookup m (hmRemove m l) = none := by
  induction l with
  | nil => simp [hmRemove, hmLookup]
  | cons kb rest ih =>
    obtain ⟨k, b'⟩ := kb
    have hnd : NodupKeys rest := by
      simpa [NodupKeys] using (List.nodup_cons.mp h).2
    by_cases hk : k = m
    · subst hk
      have hnotmem : k ∉ rest.map Prod.fst := (List.nodup_cons.mp h).1
      simp [hmRemove, hmLookup_none_of_not_mem k rest hnotmem]
    · simp [hmRemove, hmLookup, hk, ih hnd]

theorem hmLookup_hmRemove_other (m m' : Address) (l : List (Address × Book))
    (h : m' ≠ m) : hmLookup m' (hmRemove m l) = hmLookup m' l := by
  induction l with
  | nil => simp [hmRemove, hmLookup]
  | cons kb rest ih =>
    obtain ⟨k, b'⟩ := kb
    by_cases hk : k = m
    · subst hk
      have hne : k ≠ m' := fun h' => h h'.symm
      simp [hmRemove, hmLookup, hne]
    · by_cases hk' : k = m'
      · simp [hmRemove, hmLookup, hk, hk', h]
      · simp [hmRemove, hmLookup, hk, hk', ih]

theorem hmInsert_mem (m : Address) (b : Book) (l : List (Address × Book))
    (kb : Address × Book) (h : kb ∈ hmInsert m b l) : kb = (m, b) ∨ kb ∈ l := by
  induction l with
  | nil => simpa [hmInsert] using h
  | cons kb' rest ih =>
    obtain ⟨k, b'⟩ := kb'
    by_cases hk : k = m
    · subst hk
      simp [hmInsert] at h
      rcases h with h1 | h1
      · exact Or.inl h1
      · exact Or.inr (List.mem_cons_of_mem _ h1)
    · simp only [hmInsert, if_neg hk, List.mem_cons] at h
      rcases h with h1 | h1
      · exact Or.inr (List.mem_cons.mpr (Or.inl h1))
      · rcases ih h1 with h2 | h2
        · exact Or.inl h2
        · exact Or.inr (List.mem_cons_of_mem _ h2)

theorem hmRemove_mem (m : Address) (l : List (Address × Book))
    (kb : Address × Book) (h : kb ∈ hmRemove m l) : kb ∈ l := by
  induction l with
  | nil => simp [hmRemove] at h
  | cons kb' rest ih =>
    obtain ⟨k, b'⟩ := kb'
    by_cases hk : k = m
    · simp only [hmRemove, hk, if_pos rfl] at h
      exact List.mem_cons_of_mem _ h
    · simp only [hmRemove, if_neg hk, List.mem_cons] at h
      rcases h with h | h
      · exact List.mem_cons.mpr (Or.inl h)
      · exact List.mem_cons_of_mem _ (ih h)

theorem hmLookup_of_mem (m : Address) (b : Book) (l : List (Address × Book))
    (hnd : NodupKeys l) (h : (m, b) ∈ l) : hmLookup m l = some b := by
  induction l with
  | nil => simp at h
  | cons kb rest ih =>
    obtain ⟨k, b'⟩ := kb
    have hnd' : NodupKeys rest := by
      simpa [NodupKeys] using (List.nodup_cons.mp hnd).2
    rcases List.mem_cons.mp h with h1 | h
    · have hk : m = k := congrArg Prod.fst h1
      have hb : b = b' := congrArg Prod.snd h1
      subst hk; subst hb
      simp [hmLookup]
    · have hne : k ≠ m := by
        intro hk
        subst hk
        exact (List.nodup_cons.mp hnd).1 (List.mem_map.mpr ⟨(k, b), h, rfl⟩)
      simp [hmLookup, hne, ih hnd' h]

/-!  Concrete fixtures used by witnesses and counterexamples.  -/

/-- An empty book for market 5. -/
def bookA : Book := Book.new 5

/-- A different book for the same market 5 (sequence counter advanced). -/
def bookB : Book := { Book.new 5 with seq := 1 }

/-- A state holding `bookA` under market 5. -/
def stateWithBookA : OmeState := OmeState.new.add_book bookA

/-- C1 counterexample: with a book already present for market 5, `add_book`
of a second book for market 5 does not fail and does not leave the state
unchanged: it overwrites the existing entry (src/state.rs lines 54-56 call
`HashMap::insert` unconditionally and return nothing). -/
theorem c1_add_book_conflict_counterexample :
    stateWithBookA.book 5 = some bookA ∧
    stateWithBookA.add_book bookB ≠ stateWithBookA ∧
    (stateWithBookA.add_book bookB).book 5 = some bookB := by
  decide

/-- C1 amended: for every engine state and every book `b`, `add_book` creates
the entry for the market of `b` if that market is absent and overwrites the
existing entry if a book for that market already exists; it never fails, and
every other market's entry is unchanged. -/
theorem c1_add_book_amended (s : OmeState) (b : Book) :
    (s.add_book b).book b.market = some b ∧
    ∀ m, m ≠ b.market → (s.add_book b).book m = s.book m := by
  constructor
  · exact hmLookup_hmInsert_self b.market b s.books
  · intro m hm
    exact hmLookup_hmInsert_other b.market m b s.books hm

/-- C1 amended, witness at a concrete state: overwriting market 5 and
leaving market 7 alone. -/
theorem c1_add_book_amended_witness :
    (stateWithBookA.add_book bookB).book 5 = some bookB ∧
    (stateWithBookA.add_book bookB).book 7 = stateWithBookA.book 7 := by
  refine ⟨?_, ?_⟩
  · exact (c1_add_book_amended stateWithBookA bookB).1
  · exact (c1_add_book_amended stateWithBookA bookB).2 7 (by decide)

/-- C4: for every engine state and market, `book` and `book_mut` both return
nothing (the `NotFound` outcome) when the market has no book, and both return
the stored book when one is present (src/state.rs lines 44-51). -/
theorem c4_book_accessors (s : OmeState) (m : Address) :
    (m ∉ s.books.map Prod.fst → s.book m = none ∧ s.book_mut m = none) ∧
    (∀ b, NodupKeys s.books → (m, b) ∈ s.books →
      s.book m = some b ∧ s.book_mut m = some b) := by
  constructor
  · intro habs
    exact ⟨hmLookup_none_of_not_mem m s.books habs,
      hmLookup_none_of_not_mem m s.books habs⟩
  · intro b hnd hmem
    exact ⟨hmLookup_of_mem m b s.books hnd hmem,
      hmLookup_of_mem m b s.books hnd hmem⟩

/-- C4 witness: market 7 is absent from `stateWithBookA` so both accessors
return nothing; market 5 holds `bookA` and both accessors return it. -/
theorem c4_book_accessors_witness :
    (stateWithBookA.book 7 = none ∧ stateWithBookA.book_mut 7 = none) ∧
    (stateWithBookA.book 5 = some bookA ∧ stateWithBookA.book_mut 5 = some bookA) := by
  refine ⟨?_, ?_⟩
  · exact (c4_book_accessors stateWithBookA 7).1 (by decide)
  · exact (c4_book_accessors stateWithBookA 5).2 bookA (by decide) (by decide)

/-- C5: for every engine state (under the `HashMap` representation invariant)
and market `m`, after `remove_book m` the book for `m` is absent, and every
other market's entry is exactly what it was before (src/state.rs
lines 59-61). -/
theorem c5_remove_book_frame (s : OmeState) (m : Address)
    (hnd : NodupKeys s.books) :
    (s.remove_book m).2.book m = none ∧
    ∀ m2, m2 ≠ m → (s.remove_book m).2.book m2 = s.book m2 := by
  constructor
  · exact hmLookup_hmRemove_self m s.books hnd
  · intro m2 hm2
    exact hmLookup_hmRemove_other m m2 s.books hm2

/-- C5 witness: removing market 5 from `stateWithBookA` empties it and leaves
market 7's (absent) entry alone. -/
theorem c5_remove_book_frame_witness :
    (stateWithBookA.remove_book 5).2.book 5 = none ∧
    (stateWithBookA.remove_book 5).2.book 7 = stateWithBookA.book 7 := by
  refine ⟨?_, ?_⟩
  · exact (c5_remove_book_frame stateWithBookA 5 (by decide)).1
  · exact (c5_remove_book_frame stateWithBookA 5 (by decide)).2 7 (by decide)

/-- Key-market coherence: every key of the books map is the market identifier
of the book stored under it. -/
def keyCoherent (s : OmeState) : Prop :=
  ∀ kb ∈ s.books, (kb : Address × Book).2.market = kb.1

instance (s : OmeState) : Decidable (keyCoherent s) := by
  unfold keyCoherent; infer_instance

/-- C9: key-market coherence holds for the empty state produced by `new` and
is preserved by `add_book` (which keys the inserted book by its own market)
and by `remove_book`. -/
theorem c9_key_market_coherence :
    keyCoherent OmeState.new ∧
    (∀ s b, keyCoherent s → keyCoherent (s.add_book b)) ∧
    (∀ s m, keyCoherent s → keyCoherent (s.remove_book m).2) := by
  refine ⟨?_, ?_, ?_⟩
  · intro kb hkb
    simp [OmeState.new] at hkb
  · intro s b hs kb hkb
    rcases hmInsert_mem b.market b s.books kb hkb with h1 | h1
    · subst h1; rfl
    · exact hs kb h1
  · intro s m hs kb hkb
    exact hs kb (hmRemove_mem m s.books kb hkb)

/-- C9 witness: coherence, established via the preservation theorem, for the
state obtained by adding `bookB` to `stateWithBookA`. -/
theorem c9_key_market_coherence_witness :
    keyCoherent (stateWithBookA.add_book bookB) :=
  c9_key_market_coherence.2.1 stateWithBookA bookB (by decide)

/-!
The process entry point (`src/main.rs`): CLI defaults, argument parsing and
the resulting exit behaviour.  Clap, `IpAddr::from_str` and `str::parse` are
external-crate / standard-library behaviour and are modelled as follows:
clap exits the process with a non-zero code when the required
`--executioner_address` flag is missing; `IpAddr::from_str` is modelled on
its IPv4 form only (every input appearing in a theorem below is either a
well-formed IPv4 literal or invalid in both forms); `str::parse::<u16>`
accepts an optional leading plus sign followed by decimal digits valued
below 2^16.
-/

/-- `DEFAULT_IP` (src/main.rs line 37). -/
def DEFAULT_IP : String := "0.0.0.0"

/-- `DEFAULT_PORT` (src/main.rs line 40). -/
def DEFAULT_PORT : String := "8989"

/-- `DEFAULT_DUMPFILE` (src/main.rs line 43). -/
def DEFAULT_DUMPFILE : String := ".omedump.json"

/-- An IPv4 address as four octets. -/
structure IPv4 where
  o1 : Nat
  o2 : Nat
  o3 : Nat
  o4 : Nat
deriving DecidableEq, Repr

/-- Accumulate the value of a decimal digit run; fails on a non-digit. -/
def digitsToNatAux : List Char → Nat → Option Nat
  | [], acc => some acc
  | c :: cs, acc =>
    if c.isDigit then digitsToNatAux cs (acc * 10 + (c.toNat - 48)) else none

/-- The value of a nonempty run of decimal digits; fails on the empty run or
on a non-digit. -/
def digitsToNat? : List Char → Option Nat
  | [] => none
  | c :: cs => digitsToNatAux (c :: cs) 0

/-- Split a character list at every dot. -/
def splitOnDot : List Char → List (List Char)
  | [] => [[]]
  | c :: cs =>
    if c = '.' then [] :: splitOnDot cs
    else
      match splitOnDot cs with
      | [] => [[c]]
      | g :: gs => (c :: g) :: gs

/-- One dotted-decimal octet: nonempty, decimal digits only, value at most
255, no leading zero (standard-library IPv4 parsing). -/
def parseOctet (cs : List Char) : Option Nat :=
  match digitsToNat? cs with
  | none => none
  | some n =>
    if n ≤ 255 ∧ (cs.length = 1 ∨ cs.head? ≠ some '0') then some n else none

/-- `IpAddr::from_str`, IPv4 form: four dot-separated octets. -/
def parseIPv4 (s : String) : Option IPv4 :=
  match splitOnDot s.toList with
  | [p1, p2, p3, p4] =>
    match parseOctet p1, parseOctet p2, parseOctet p3, parseOctet p4 with
    | some x1, some x2, some x3, some x4 => some ⟨x1, x2, x3, x4⟩
    | _, _, _, _ => none
  | _ => none

/-- `str::parse::<u16>`: optional leading plus sign, then decimal digits,
value below 2^16. -/
def parse_u16 (s : String) : Option Nat :=
  let t := match s.toList with
    | '+' :: rest => rest
    | cs => cs
  match digitsToNat? t with
  | none => none
  | some n => if n < 65536 then some n else none

/-- The command-line matches: each optional flag is either absent or a raw
string value (src/main.rs lines 50-83). -/
structure Args where
  address : Option String
  port : Option String
  dumpfile : Option String
  executioner_address : Option String
deriving DecidableEq, Repr

/-- The configuration `main` has resolved once all arguments parsed
(src/main.rs lines 87-115). -/
structure Config where
  listen_address : IPv4
  listen_port : Nat
  dumpfile_path : String
  executioner_address : String
deriving DecidableEq, Repr

/-- What `main` does with the arguments: terminate with an exit code, or
proceed to serve with a resolved configuration. -/
inductive MainOutcome where
  | exited (code : Nat)
  | serving (cfg : Config)
deriving DecidableEq, Repr

/-- The argument-handling prefix of `main` (src/main.rs lines 50-115):
clap exits with code 1 when the required `--executioner_address` is missing;
a failed IP or port parse prints the error and returns from `main`, which
ends the process with exit code 0; otherwise the server is started with the
resolved configuration (defaults substituted for absent flags). -/
def runMain (a : Args) : MainOutcome :=
  match a.executioner_address with
  | none => .exited 1
  | some exec =>
    match parseIPv4 (a.address.getD DEFAULT_IP) with
    | none => .exited 0
    | some ip =>
      match parse_u16 (a.port.getD DEFAULT_PORT) with
      | none => .exited 0
      | some p => .serving ⟨ip, p, a.dumpfile.getD DEFAULT_DUMPFILE, exec⟩

/-- The process exit code: the code of an early termination, or 0 when the
server future completes (clean shutdown: `main` returns unit).  `none` while
still serving. -/
def mainExitCode (a : Args) (serve_returned : Bool) : Option Nat :=
  match runMain a with
  | .exited c => some c
  | .serving _ => if serve_returned then some 0 else none

/-- A concrete invocation whose --listen value parses as no IP address. -/
def argsBadIp : Args :=
  { address := some "not an ip address", port := none, dumpfile := none,
    executioner_address := some "http://executioner" }

/-- C7: with no flags given, the engine serves on IP 0.0.0.0, TCP port 8989,
with dump file path .omedump.json; the --executioner_address flag is
required (the process exits non-zero without it) and has no default. -/
theorem c7_cli_defaults :
    (∀ exec, runMain ⟨none, none, none, some exec⟩ =
      .serving ⟨⟨0, 0, 0, 0⟩, 8989, ".omedump.json", exec⟩) ∧
    (∀ a : Args, a.executioner_address = none → runMain a = .exited 1) := by
  constructor
  · intro exec
    rfl
  · intro a ha
    unfold runMain
    rw [ha]

/-- C7 witness: the default configuration at a concrete executioner URL, and
the non-zero exit at a concrete flagless invocation. -/
theorem c7_cli_defaults_witness :
    runMain ⟨none, none, none, some "http://executioner"⟩ =
      .serving ⟨⟨0, 0, 0, 0⟩, 8989, ".omedump.json", "http://executioner"⟩ ∧
    runMain ⟨none, none, none, none⟩ = .exited 1 :=
  ⟨c7_cli_defaults.1 "http://executioner",
   c7_cli_defaults.2 ⟨none, none, none, none⟩ rfl⟩

/-- C8 counterexample: an invocation with an unparseable --listen value makes
`main` print the error and return, so the process terminates with exit code
0, not a non-zero code (src/main.rs lines 87-95 end in a bare `return`). -/
theorem c8_exit_code_counterexample :
    mainExitCode argsBadIp false = some 0 ∧
    ¬ ∃ c, mainExitCode argsBadIp false = some c ∧ c ≠ 0 := by
  constructor
  · decide
  · rintro ⟨c, hc, hne⟩
    have h0 : mainExitCode argsBadIp false = some 0 := by decide
    rw [hc] at h0
    exact hne (Option.some.inj h0)

/-- C8 amended: an invocation whose --listen value is not a parseable IP
address, or whose --port value is not a parseable u16, terminates the process
with exit code 0 (error printed, early return from `main`); a clean shutdown
also exits with code 0. -/
theorem c8_exit_codes_amended (a : Args) :
    (∀ exec, a.executioner_address = some exec →
      (parseIPv4 (a.address.getD DEFAULT_IP) = none ∨
        parse_u16 (a.port.getD DEFAULT_PORT) = none) →
      ∀ sr, mainExitCode a sr = some 0) ∧
    (∀ cfg, runMain a = .serving cfg → mainExitCode a true = some 0) := by
  constructor
  · intro exec hexec hbad sr
    unfold mainExitCode runMain
    rw [hexec]
    rcases hbad with hip | hport
    · rw [hip]
    · cases hipv : parseIPv4 (a.address.getD DEFAULT_IP) with
      | none => rfl
      | some ip => rw [hport]
  · intro cfg hserve
    unfold mainExitCode
    rw [hserve]
    rfl

/-- C8 amended, witness: exit code 0 at the concrete bad --listen invocation,
and exit code 0 after a clean shutdown of a default invocation. -/
theorem c8_exit_codes_amended_witness :
    mainExitCode argsBadIp false = some 0 ∧
    mainExitCode ⟨none, none, none, some "http://executioner"⟩ true = some 0 :=
  ⟨(c8_exit_codes_amended argsBadIp).1 "http://executioner" rfl
      (Or.inl (by decide)) false,
   (c8_exit_codes_amended ⟨none, none, none, some "http://executioner"⟩).2
      ⟨⟨0, 0, 0, 0⟩, 8989, ".omedump.json", "http://executioner"⟩ (by decide)⟩

/-!
The persisted state format (spec section 6): a single JSON object
`{"books": {"<market-hex>": <book-json>, ...}}`.  Serialization is the
serde derive on `OmeState` and `Book` (`book.rs` is not in the published
sources), modelled here at the JSON-value level: `encodeOmeState` takes the
books map entries in an arbitrary iteration order (the `HashMap` iterates
unordered), every decoder is total, and the decoders accept the canonical
field order produced by the encoders (serde's tolerance for reordered struct
fields is not modelled; the iteration order of the unordered books map is).
-/

/-- A JSON value (the serde_json value model restricted to the constructs
the dump format uses; numbers are the non-negative integers the engine
serializes). -/
inductive Json where
  | null
  | jbool (b : Bool)
  | num (n : Nat)
  | str (s : String)
  | arr (elems : List Json)
  | obj (fields : List (String × Json))

/-- Effectful map over a list in the `Option` monad, with explicit
structure so that proofs and kernel evaluation are direct. -/
def optionMapM {α β : Type} (f : α → Option β) : List α → Option (List β)
  | [] => some []
  | x :: xs =>
    match f x, optionMapM f xs with
    | some y, some ys => some (y :: ys)
    | _, _ => none

theorem optionMapM_map_roundtrip {α β : Type} (f : α → β) (g : β → Option α)
    (l : List α) (h : ∀ x ∈ l, g (f x) = some x) :
    optionMapM g (l.map f) = some l := by
  induction l with
  | nil => rfl
  | cons x xs ih =>
    have hx : g (f x) = some x := h x (List.mem_cons_self x xs)
    have hxs : optionMapM g (xs.map f) = some xs :=
      ih (fun y hy => h y (List.mem_cons_of_mem x hy))
    simp [optionMapM, hx, hxs]

/-- The base-16 digits of a number, least significant first (with explicit
fuel so evaluation is structural). -/
def hexDigitsAux : Nat → Nat → List Nat
  | 0, _ => []
  | _ + 1, 0 => []
  | fuel + 1, n + 1 => (n + 1) % 16 :: hexDigitsAux fuel ((n + 1) / 16)

/-- The base-16 digits of a number, least significant first. -/
def hexDigits (n : Nat) : List Nat := hexDigitsAux n n

/-- Value of a least-significant-first base-16 digit list. -/
def ofHexDigits : List Nat → Nat
  | [] => 0
  | d :: ds => d + 16 * ofHexDigits ds

theorem hexDigitsAux_lt (fuel n : Nat) : ∀ d ∈ hexDigitsAux fuel n, d < 16 := by
  induction fuel generalizing n with
  | zero => intro d hd; simp [hexDigitsAux] at hd
  | succ fuel ih =>
    intro d hd
    match n with
    | 0 => simp [hexDigitsAux] at hd
    | n + 1 =>
      simp only [hexDigitsAux, List.mem_cons] at hd
      rcases hd with hd | hd
      · subst hd; exact Nat.mod_lt _ (by omega)
      · exact ih _ d hd

theorem ofHexDigits_hexDigitsAux (fuel n : Nat) (h : n ≤ fuel) :
    ofHexDigits (hexDigitsAux fuel n) = n := by
  induction fuel generalizing n with
  | zero =>
    have hn : n = 0 := Nat.le_zero.mp h
    subst hn; rfl
  | succ fuel ih =>
    match n with
    | 0 => rfl
    | n + 1 =>
      have hdiv : (n + 1) / 16 ≤ fuel := by
        have : (n + 1) / 16 < n + 1 := Nat.div_lt_self (by omega) (by omega)
        omega
      simp only [hexDigitsAux, ofHexDigits, ih _ hdiv]
      omega

theorem ofHexDigits_hexDigits (n : Nat) : ofHexDigits (hexDigits n) = n :=
  ofHexDigits_hexDigitsAux n n (Nat.le_refl n)

/-- The character for one base-16 digit (lower-case hex). -/
def hexDigitChar (d : Nat) : Char :=
  if d < 10 then Char.ofNat (48 + d) else Char.ofNat (87 + d)

/-- The value of one hex character (digits and lower-case letters). -/
def hexCharVal (c : Char) : Option Nat :=
  if 48 ≤ c.toNat ∧ c.toNat ≤ 57 then some (c.toNat - 48)
  else if 97 ≤ c.toNat ∧ c.toNat ≤ 102 then some (c.toNat - 87)
  else none

theorem hexCharVal_hexDigitChar : ∀ d, d < 16 → hexCharVal (hexDigitChar d) = some d := by
  decide

/-- The object key serializing a market address: 0x followed by lower-case
hex digits, most significant first (the fixed H160 width is immaterial to
round-tripping and not modelled). -/
def addressKey (a : Address) : String :=
  ⟨'0' :: 'x' :: ((hexDigits a).reverse.map hexDigitChar)⟩

/-- Parse a market address key back to the address. -/
def addressOfKey (s : String) : Option Address :=
  match s.toList with
  | '0' :: 'x' :: ds =>
    match optionMapM hexCharVal ds with
    | some l => some (ofHexDigits l.reverse)
    | none => none
  | _ => none

theorem addressOfKey_addressKey (a : Address) :
    addressOfKey (addressKey a) = some a := by
  have hmap : optionMapM hexCharVal (((hexDigits a).map hexDigitChar).reverse) =
      some (hexDigits a).reverse := by
    rw [← List.map_reverse]
    refine optionMapM_map_roundtrip hexDigitChar hexCharVal (hexDigits a).reverse ?_
    intro d hd
    exact hexCharVal_hexDigitChar d (hexDigitsAux_lt a a d (List.mem_reverse.mp hd))
  simp [addressKey, addressOfKey, hmap, List.reverse_reverse, ofHexDigits_hexDigits]

/-- Serialize a side (serde external tagging of a unit variant). -/
def encodeSide : Side → Json
  | .bid => .str "Bid"
  | .ask => .str "Ask"

/-- Parse a side. -/
def decodeSide : Json → Option Side
  | .str s => if s = "Bid" then some .bid else if s = "Ask" then some .ask else none
  | _ => none

theorem decodeSide_encodeSide (s : Side) : decodeSide (encodeSide s) = some s := by
  cases s <;> rfl

/-- Serialize an order status. -/
def encodeStatus : OrderStatus → Json
  | .opened => .str "Open"
  | .partFilled => .str "Partial"
  | .filled => .str "Filled"
  | .cancelled => .str "Cancelled"

/-- Parse an order status. -/
def decodeStatus : Json → Option OrderStatus
  | .str s =>
    if s = "Open" then some .opened
    else if s = "Partial" then some .partFilled
    else if s = "Filled" then some .filled
    else if s = "Cancelled" then some .cancelled
    else none
  | _ => none

theorem decodeStatus_encodeStatus (st : OrderStatus) :
    decodeStatus (encodeStatus st) = some st := by
  cases st <;> rfl

/-- Serialize an order as an object in field declaration order. -/
def encodeOrder (o : Order) : Json :=
  .obj [("id", .num o.id), ("user", .num o.user), ("market", .num o.market),
    ("side", encodeSide o.side), ("price", .num o.price),
    ("amount", .num o.amount), ("remaining", .num o.remaining),
    ("status", encodeStatus o.status), ("created_at", .num o.created_at),
    ("signature", .str o.signature)]

/-- Parse an order (canonical field order). -/
def decodeOrder : Json → Option Order
  | .obj [("id", .num id), ("user", .num user), ("market", .num market),
      ("side", jside), ("price", .num price), ("amount", .num amount),
      ("remaining", .num remaining), ("status", jstatus),
      ("created_at", .num created_at), ("signature", .str signature)] =>
    match decodeSide jside, decodeStatus jstatus with
    | some side, some status =>
      some ⟨id, user, market, side, price, amount, remaining, status,
        created_at, signature⟩
    | _, _ => none
  | _ => none

theorem decodeOrder_encodeOrder (o : Order) : decodeOrder (encodeOrder o) = some o := by
  obtain ⟨id, user, market, side, price, amount, remaining, status, ca, sig⟩ := o
  cases side <;> cases status <;> rfl

/-- Serialize one price level: the price and its FIFO queue. -/
def encodeLevel (lv : Nat × List Order) : Json :=
  .arr [.num lv.1, .arr (lv.2.map encodeOrder)]

/-- Parse one price level. -/
def decodeLevel : Json → Option (Nat × List Order)
  | .arr [.num price, .arr jorders] =>
    match optionMapM decodeOrder jorders with
    | some orders => some (price, orders)
    | none => none
  | _ => none

theorem decodeLevel_encodeLevel (lv : Nat × List Order) :
    decodeLevel (encodeLevel lv) = some lv := by
  obtain ⟨price, orders⟩ := lv
  have h : optionMapM decodeOrder (orders.map encodeOrder) = some orders :=
    optionMapM_map_roundtrip encodeOrder decodeOrder orders
      (fun o _ => decodeOrder_encodeOrder o)
  simp [encodeLevel, decodeLevel, h]

/-- Serialize a ladder as its list of levels, best price first. -/
def encodeLadder (l : Ladder) : Json := .arr (l.map encodeLevel)

/-- Parse a ladder. -/
def decodeLadder : Json → Option Ladder
  | .arr jlevels => optionMapM decodeLevel jlevels
  | _ => none

theorem decodeLadder_encodeLadder (l : Ladder) :
    decodeLadder (encodeLadder l) = some l := by
  exact optionMapM_map_roundtrip encodeLevel decodeLevel l
    (fun lv _ => decodeLevel_encodeLevel lv)

/-- Serialize one index entry: order id, side and price. -/
def encodeIndexEntry (e : Nat × Side × Nat) : Json :=
  .arr [.num e.1, encodeSide e.2.1, .num e.2.2]

/-- Parse one index entry. -/
def decodeIndexEntry : Json → Option (Nat × Side × Nat)
  | .arr [.num id, jside, .num price] =>
    match decodeSide jside with
    | some side => some (id, side, price)
    | none => none
  | _ => none

theorem decodeIndexEntry_encodeIndexEntry (e : Nat × Side × Nat) :
    decodeIndexEntry (encodeIndexEntry e) = some e := by
  obtain ⟨id, side, price⟩ := e
  cases side <;> rfl

/-- Serialize a book as an object in field declaration order. -/
def encodeBook (b : Book) : Json :=
  .obj [("market", .num b.market), ("bids", encodeLadder b.bids),
    ("asks", encodeLadder b.asks),
    ("index", .arr (b.index.map encodeIndexEntry)), ("seq", .num b.seq)]

/-- Parse a book (canonical field order). -/
def decodeBook : Json → Option Book
  | .obj [("market", .num market), ("bids", jbids), ("asks", jasks),
      ("index", .arr jindex), ("seq", .num seq)] =>
    match decodeLadder jbids, decodeLadder jasks,
        optionMapM decodeIndexEntry jindex with
    | some bids, some asks, some index =>
      some ⟨market, bids, asks, index, seq⟩
    | _, _, _ => none
  | _ => none

theorem decodeBook_encodeBook (b : Book) : decodeBook (encodeBook b) = some b := by
  obtain ⟨market, bids, asks, index, seq⟩ := b
  have hidx : optionMapM decodeIndexEntry (index.map encodeIndexEntry) = some index :=
    optionMapM_map_roundtrip encodeIndexEntry decodeIndexEntry index
      (fun e _ => decodeIndexEntry_encodeIndexEntry e)
  simp [encodeBook, decodeBook, decodeLadder_encodeLadder, hidx]

/-- Serialize one books-map entry. -/
def encodeBookEntry (e : Address × Book) : String × Json :=
  (addressKey e.1, encodeBook e.2)

/-- Parse one books-map entry. -/
def decodeBookEntry (e : String × Json) : Option (Address × Book) :=
  match addressOfKey e.1, decodeBook e.2 with
  | some a, some b => some (a, b)
  | _, _ => none

theorem decodeBookEntry_encodeBookEntry (e : Address × Book) :
    decodeBookEntry (encodeBookEntry e) = some e := by
  obtain ⟨a, b⟩ := e
  simp [encodeBookEntry, decodeBookEntry, addressOfKey_addressKey,
    decodeBook_encodeBook]

/-- Serialize the engine state (spec section 6): a single object
`books : {...}` whose inner object carries one entry per market.  The
`entries` argument is the books map in the iteration order the `HashMap`
happens to produce. -/
def encodeOmeState (entries : List (Address × Book)) : Json :=
  .obj [("books", .obj (entries.map encodeBookEntry))]

/-- Parse the engine state. -/
def decodeOmeState : Json → Option OmeState
  | .obj [("books", .obj jentries)] =>
    match optionMapM decodeBookEntry jentries with
    | some entries => some ⟨entries⟩
    | none => none
  | _ => none

theorem decodeOmeState_encodeOmeState (entries : List (Address × Book)) :
    decodeOmeState (encodeOmeState entries) = some ⟨entries⟩ := by
  have h : optionMapM decodeBookEntry (entries.map encodeBookEntry) = some entries :=
    optionMapM_map_roundtrip encodeBookEntry decodeBookEntry entries
      (fun e _ => decodeBookEntry_encodeBookEntry e)
  simp [encodeOmeState, decodeOmeState, h]

/-- Lookup in the books map only depends on the map contents, not on the
iteration order, as long as keys are distinct. -/
theorem hmLookup_perm (m : Address) (l1 l2 : List (Address × Book))
    (p : l1.Perm l2) : NodupKeys l2 → hmLookup m l1 = hmLookup m l2 := by
  induction p with
  | nil => intro _; rfl
  | cons x p ih =>
    rename_i t1 t2
    intro hnd
    obtain ⟨k, b⟩ := x
    have hnd2 : NodupKeys t2 := by
      simpa [NodupKeys] using (List.nodup_cons.mp hnd).2
    by_cases hk : k = m <;> simp [hmLookup, hk, ih hnd2]
  | swap x y l =>
    intro hnd
    obtain ⟨k1, b1⟩ := x
    obtain ⟨k2, b2⟩ := y
    have hne : k1 ≠ k2 := by
      have h1 := (List.nodup_cons.mp hnd).1
      simp only [List.map_cons, List.mem_cons] at h1
      push_neg at h1
      exact h1.1
    by_cases h1 : k1 = m
    · subst h1
      have h2 : k2 ≠ k1 := fun h => hne h.symm
      simp [hmLookup, h2]
    · by_cases h2 : k2 = m <;> simp [hmLookup, h1, h2]
  | trans p1 p2 ih1 ih2 =>
    rename_i t1 t2 t3
    intro hnd
    have hndmid : NodupKeys t2 := by
      unfold NodupKeys
      exact ((p2.map Prod.fst).nodup_iff).mpr hnd
    exact (ih1 hndmid).trans (ih2 hnd)

/-- C3: serializing an engine state in any iteration order of its books map
and deserializing the result yields a state whose books map has exactly the
same logical contents (every market maps to the same book); iteration order
of the unordered container does not affect the restored state. -/
theorem c3_snapshot_roundtrip (s : OmeState) (entries : List (Address × Book))
    (hnd : NodupKeys s.books) (hperm : entries.Perm s.books) :
    ∃ t, decodeOmeState (encodeOmeState entries) = some t ∧
      ∀ m, t.book m = s.book m := by
  refine ⟨⟨entries⟩, decodeOmeState_encodeOmeState entries, ?_⟩
  intro m
  exact hmLookup_perm m entries s.books hperm hnd

/-- A book with resting orders on both sides, used by round-trip witnesses. -/
def bookM7 : Book :=
  { market := 7
    bids := [(100, [⟨0, 11, 7, Side.bid, 100, 5, 5, OrderStatus.opened, 0, "sigb"⟩])]
    asks := [(105, [⟨1, 12, 7, Side.ask, 105, 3, 3, OrderStatus.opened, 1, "siga"⟩])]
    index := [(0, Side.bid, 100), (1, Side.ask, 105)]
    seq := 2 }

/-- A state holding two books, for markets 5 and 7. -/
def stateTwoBooks : OmeState := ⟨[(5, bookA), (7, bookM7)]⟩

/-- C3 witness: the two-book state round-trips even when serialized with its
entries in the opposite iteration order. -/
theorem c3_snapshot_roundtrip_witness :
    ∃ t, decodeOmeState (encodeOmeState [(7, bookM7), (5, bookA)]) = some t ∧
      ∀ m, t.book m = stateTwoBooks.book m :=
  c3_snapshot_roundtrip stateTwoBooks [(7, bookM7), (5, bookA)]
    (by decide) (by decide)

/-!
Deserialization from text (`serde_json::from_str`, an external crate):
modelled as a recursive-descent JSON parser over the character list, total
by construction (explicit fuel; the backslash-u escape form is not
modelled).  Only the dump-reading path uses it.
-/

/-- The opening brace character. -/
def lbraceChar : Char := Char.ofNat 123

/-- The closing brace character. -/
def rbraceChar : Char := Char.ofNat 125

/-- Drop leading JSON whitespace. -/
def jsonSkipWs : List Char → List Char
  | [] => []
  | c :: cs =>
    if c = ' ' ∨ c = '\n' ∨ c = '\t' ∨ c = '\r' then jsonSkipWs cs else c :: cs

/-- Resolve a backslash escape inside a JSON string. -/
def escCharJson (c : Char) : Option Char :=
  if c = '"' ∨ c = '\\' ∨ c = '/' then some c
  else if c = 'n' then some '\n'
  else if c = 't' then some '\t'
  else if c = 'r' then some '\r'
  else none

/-- Parse the remainder of a JSON string literal (opening quote already
consumed), accumulating characters in reverse. -/
def parseStringAux : List Char → List Char → Option (String × List Char)
  | [], _ => none
  | c :: cs, acc =>
    if c = '"' then some (⟨acc.reverse⟩, cs)
    else if c = '\\' then
      match cs with
      | [] => none
      | e :: cs2 =>
        match escCharJson e with
        | some r => parseStringAux cs2 (r :: acc)
        | none => none
    else parseStringAux cs (c :: acc)

/-- Split off a leading run of decimal digits. -/
def takeDigits : List Char → List Char × List Char
  | [] => ([], [])
  | c :: cs =>
    if c.isDigit then
      let p := takeDigits cs
      (c :: p.1, p.2)
    else ([], c :: cs)

/-- Parser mode: a single value, the items of an array, or the fields of an
object (accumulators carried so the recursion is on the fuel alone). -/
inductive PMode where
  | value
  | elems (acc : List Json)
  | fields (acc : List (String × Json))

/-- The recursive-descent JSON parser: returns the parsed value and the
unconsumed remainder, or fails. -/
def parseP : Nat → PMode → List Char → Option (Json × List Char)
  | 0, _, _ => none
  | fuel + 1, .value, cs =>
    match jsonSkipWs cs with
    | [] => none
    | c :: rest =>
      if c = 'n' then
        match rest with
        | 'u' :: 'l' :: 'l' :: r => some (.null, r)
        | _ => none
      else if c = 't' then
        match rest with
        | 'r' :: 'u' :: 'e' :: r => some (.jbool true, r)
        | _ => none
      else if c = 'f' then
        match rest with
        | 'a' :: 'l' :: 's' :: 'e' :: r => some (.jbool false, r)
        | _ => none
      else if c = '"' then
        match parseStringAux rest [] with
        | some (s, r) => some (.str s, r)
        | none => none
      else if c = '[' then
        match jsonSkipWs rest with
        | ']' :: r2 => some (.arr [], r2)
        | cs2 => parseP fuel (.elems []) cs2
      else if c = lbraceChar then
        match jsonSkipWs rest with
        | c2 :: r2 =>
          if c2 = rbraceChar then some (.obj [], r2)
          else parseP fuel (.fields []) (c2 :: r2)
        | [] => none
      else if c.isDigit then
        let p := takeDigits (c :: rest)
        match digitsToNat? p.1 with
        | some n => some (.num n, p.2)
        | none => none
      else none
  | fuel + 1, .elems acc, cs =>
    match parseP fuel .value cs with
    | none => none
    | some (v, r) =>
      match jsonSkipWs r with
      | ',' :: r2 => parseP fuel (.elems (acc ++ [v])) r2
      | ']' :: r2 => some (.arr (acc ++ [v]), r2)
      | _ => none
  | fuel + 1, .fields acc, cs =>
    match jsonSkipWs cs with
    | '"' :: r =>
      match parseStringAux r [] with
      | none => none
      | some (key, r2) =>
        match jsonSkipWs r2 with
        | ':' :: r3 =>
          match parseP fuel .value r3 with
          | none => none
          | some (v, r4) =>
            match jsonSkipWs r4 with
            | ',' :: r5 => parseP fuel (.fields (acc ++ [(key, v)])) r5
            | c5 :: r5 =>
              if c5 = rbraceChar then some (.obj (acc ++ [(key, v)]), r5)
              else none
            | [] => none
        | _ => none
    | _ => none

/-- `serde_json` text parsing of one JSON document: a value followed only by
whitespace. -/
def parseJson (s : String) : Option Json :=
  let cs := s.toList
  match parseP (cs.length * 2 + 4) .value cs with
  | some (j, rest) => if jsonSkipWs rest = [] then some j else none
  | none => none

/-- `serde_json::from_str::<OmeState>`: parse the text, then decode the
engine state. -/
def serde_from_str (s : String) : Option OmeState :=
  match parseJson s with
  | some j => decodeOmeState j
  | none => none

/-- `OmeState::from_dumpfile` (src/state.rs lines 25-35): read the file (the
filesystem is modelled as a map from path to readable contents, `none`
meaning absent or unreadable), returning `None` on a read error, then parse,
returning `None` on a parse error. -/
def OmeState.from_dumpfile (fs : String → Option String) (path : String) :
    Option OmeState :=
  match fs path with
  | some dump_data =>
    match serde_from_str dump_data with
    | some t => some t
    | none => none
  | none => none

/-- The state-restoring step of `main` (src/main.rs lines 117-124):
`util::is_existing_state` is not in the published sources, so its result is
an arbitrary boolean here; `Default::default()` for the derived instance is
the empty books map, the same state as `OmeState::new`. -/
def restoreInternalState (fs : String → Option String)
    (is_existing_state : Bool) (path : String) : OmeState :=
  if is_existing_state then
    match OmeState.from_dumpfile fs path with
    | some s => s
    | none => OmeState.new
  else OmeState.new

/-- C2: whenever the dump file is absent or unreadable, or its contents do
not deserialize to an engine state, startup restores the empty engine state
(no books) instead of failing, whatever the existence pre-check said. -/
theorem c2_restore_failure_empty (fs : String → Option String)
    (is_existing_state : Bool) (path : String)
    (h : fs path = none ∨ ∃ c, fs path = some c ∧ serde_from_str c = none) :
    restoreInternalState fs is_existing_state path = OmeState.new ∧
    OmeState.new.books = [] := by
  refine ⟨?_, rfl⟩
  unfold restoreInternalState OmeState.from_dumpfile
  rcases h with h | ⟨c, hc, hparse⟩
  · cases is_existing_state
    · rfl
    · simp [h]
  · cases is_existing_state
    · rfl
    · simp [hc, hparse]

/-- A filesystem whose every file reads as text that is not JSON. -/
def fsGarbage : String → Option String := fun _ => some "garbage"

/-- A filesystem with no readable files. -/
def fsAbsent : String → Option String := fun _ => none

/-- C2 witness: restoring from an unparseable dump file yields the empty
state. -/
theorem c2_restore_failure_empty_witness :
    restoreInternalState fsGarbage true ".omedump.json" = OmeState.new ∧
    OmeState.new.books = [] :=
  c2_restore_failure_empty fsGarbage true ".omedump.json"
    (Or.inr ⟨"garbage", rfl, by decide⟩)

/-- C10: `from_dumpfile` is a total function into an option: it returns a
state exactly when the file read succeeds and the contents deserialize to a
valid engine state, and returns nothing in every other case (read error or
parse error); never panicking is totality of this definition. -/
theorem c10_from_dumpfile_total (fs : String → Option String) (path : String) :
    (∀ st, OmeState.from_dumpfile fs path = some st ↔
      ∃ c, fs path = some c ∧ serde_from_str c = some st) ∧
    (OmeState.from_dumpfile fs path = none ↔
      fs path = none ∨ ∃ c, fs path = some c ∧ serde_from_str c = none) := by
  unfold OmeState.from_dumpfile
  cases hfs : fs path with
  | none => simp
  | some c =>
    cases hp : serde_from_str c with
    | none => simp [hp]
    | some st0 => simp [hp]

/-!
The matching core (spec section 4.2).  `book.rs` is not in the published
sources, so the `place` algorithm is modelled from the specification: the
taker walks the opposite ladder best level first, filling against the front
of each level's FIFO queue at the maker's price, removing filled makers and
empty levels, and finally resting any residual in its own ladder.  The
while-loop of the spec is decomposed into `matchQueue` (consume makers
inside one price level) and `matchLoop` (walk the levels); both are
structurally recursive and together take exactly the spec's steps.
-/

/-- Modelled from the spec: an order submission before acceptance
(`remaining == amount`, status OPEN, no id or timestamp yet). -/
structure Submission where
  user : Address
  side : Side
  price : Nat
  amount : Nat
  signature : String
deriving DecidableEq, Repr

/-- Modelled from the spec: one matched pairing between the incoming taker
and one resting maker (the taker id is still pending during the loop). -/
structure Fill where
  maker_id : Nat
  taker_id : Option Nat
  price : Nat
  qty : Nat
  maker_user : Address
  taker_user : Address
  market : Address
deriving DecidableEq, Repr

/-- Modelled from the spec: error kinds surfaced by the core (spec
section 7). -/
inductive OmeError where
  | invalidOrder
  | notFound
  | conflict
  | invalidFill
deriving DecidableEq, Repr

/-- Modelled from the spec: `apply_fill(qty)` reduces the outstanding
quantity and moves the status to FILLED exactly when it reaches zero. -/
def Order.apply_fill (o : Order) (qty : Nat) : Order :=
  { o with
    remaining := o.remaining - qty,
    status := if o.remaining - qty = 0 then .filled else .partFilled }

/-- The cross test (spec section 4.2 step 2b): a BID taker crosses a level
iff its price is at least the level price, an ASK taker iff its price is at
most the level price. -/
def crosses (side : Side) (takerPrice levelPrice : Nat) : Bool :=
  match side with
  | .bid => levelPrice ≤ takerPrice
  | .ask => takerPrice ≤ levelPrice

/-- What the matching loop returns: the taker's outstanding quantity, the
opposite ladder after consumption, and the fills produced so far. -/
structure LoopResult where
  remaining : Nat
  opposite : Ladder
  fills : List Fill
deriving DecidableEq, Repr

/-- Consume makers from the front of one crossed level's FIFO queue
(spec section 4.2 steps 2c-2f, price constant inside a level): each step
fills `min(remaining, maker.remaining)` at the maker's price; a fully
filled maker is removed, a partially filled maker stays in place and the
taker is exhausted. -/
def matchQueue (r : Nat) (price : Nat) (takerUser market : Address) :
    List Order → List Fill → Nat × List Order × List Fill
  | [], fills => (r, [], fills)
  | maker :: qrest, fills =>
    if r = 0 then (0, maker :: qrest, fills)
    else
      let qty := min r maker.remaining
      let fill : Fill := ⟨maker.id, none, price, qty, maker.user, takerUser, market⟩
      if maker.remaining ≤ r then
        matchQueue (r - qty) price takerUser market qrest (fills ++ [fill])
      else
        (0, maker.apply_fill r :: qrest, fills ++ [fill])

/-- Walk the opposite ladder best level first (spec section 4.2 step 2):
stop when the taker is exhausted, the ladder is empty, or the best level no
longer crosses; a level emptied of makers is removed. -/
def matchLoop (side : Side) (takerPrice : Nat) (takerUser market : Address) :
    Nat → Ladder → List Fill → LoopResult
  | r, [], fills => ⟨r, [], fills⟩
  | r, (price, queue) :: rest, fills =>
    if r = 0 then ⟨0, (price, queue) :: rest, fills⟩
    else if crosses side takerPrice price then
      match matchQueue r price takerUser market queue fills with
      | (r2, [], fills2) => matchLoop side takerPrice takerUser market r2 rest fills2
      | (r2, q0 :: qs, fills2) => ⟨r2, (price, q0 :: qs) :: rest, fills2⟩
    else ⟨r, (price, queue) :: rest, fills⟩

/-- Modelled from the spec: the outcome of `place`: the fills produced and
the id of the resting residual, if any. -/
structure PlacementOutcome where
  fills : List Fill
  resting : Option Nat
deriving DecidableEq, Repr

/-- Ladder order: whether price `a` is strictly better than `b` on the
given side (higher for bids, lower for asks). -/
def priceBetter (side : Side) (a b : Nat) : Bool :=
  match side with
  | .bid => b < a
  | .ask => a < b

/-- Insert a resting order at its price into a side's ladder (append to the
FIFO tail of an existing level, or create a level in ladder order). -/
def insertLevel (side : Side) (price : Nat) (o : Order) : Ladder → Ladder
  | [] => [(price, [o])]
  | (p, q) :: rest =>
    if p = price then (p, q ++ [o]) :: rest
    else if priceBetter side price p then (price, [o]) :: (p, q) :: rest
    else (p, q) :: insertLevel side price o rest

/-- Modelled from the spec: `Book::place` (spec section 4.2).  Rejects a
zero-price or zero-quantity order; otherwise matches against the opposite
ladder and rests any residual in the own ladder with a fresh sequence
number (ids are drawn from the same counter). -/
def Book.place (b : Book) (sub : Submission) :
    Except OmeError (PlacementOutcome × Book) :=
  if sub.amount = 0 ∨ sub.price = 0 then .error .invalidOrder
  else
    let opp : Ladder :=
      match sub.side with
      | .bid => b.asks
      | .ask => b.bids
    let res := matchLoop sub.side sub.price sub.user b.market sub.amount opp []
    if res.remaining = 0 then
      match sub.side with
      | .bid => .ok (⟨res.fills, none⟩, { b with asks := res.opposite })
      | .ask => .ok (⟨res.fills, none⟩, { b with bids := res.opposite })
    else
      let oid := b.seq
      let o : Order := ⟨oid, sub.user, b.market, sub.side, sub.price, sub.amount,
        res.remaining,
        if res.remaining = sub.amount then .opened else .partFilled,
        b.seq, sub.signature⟩
      match sub.side with
      | .bid => .ok (⟨res.fills, some oid⟩,
          { b with
            asks := res.opposite,
            bids := insertLevel .bid sub.price o b.bids,
            index := b.index ++ [(oid, Side.bid, sub.price)],
            seq := b.seq + 1 })
      | .ask => .ok (⟨res.fills, some oid⟩,
          { b with
            bids := res.opposite,
            asks := insertLevel .ask sub.price o b.asks,
            index := b.index ++ [(oid, Side.ask, sub.price)],
            seq := b.seq + 1 })

/-- Apply a sequence of `place` operations; a rejected submission leaves the
book unchanged. -/
def Book.placeAll (b : Book) : List Submission → Book
  | [] => b
  | sub :: rest =>
    match b.place sub with
    | .ok (_, b2) => b2.placeAll rest
    | .error _ => b.placeAll rest

/-- The price list of the bid ladder, best first. -/
def bidPrices (b : Book) : List Nat := b.bids.map Prod.fst

/-- The price list of the ask ladder, best first. -/
def askPrices (b : Book) : List Nat := b.asks.map Prod.fst

/-- The best (highest) bid price: the bid ladder's head. -/
def Book.bestBid (b : Book) : Option Nat := (bidPrices b).head?

/-- The best (lowest) ask price: the ask ladder's head. -/
def Book.bestAsk (b : Book) : Option Nat := (askPrices b).head?

/-- The structural invariant of a pair of ladders: bid levels strictly
descending, ask levels strictly ascending, and no bid price at or above any
ask price (spec section 3, book invariant 3). -/
structure LaddersInv (bids asks : Ladder) : Prop where
  bids_sorted : List.Sorted (fun a c => c < a) (bids.map Prod.fst)
  asks_sorted : List.Sorted (fun a c => a < c) (asks.map Prod.fst)
  not_crossed : ∀ pb ∈ bids.map Prod.fst, ∀ pa ∈ asks.map Prod.fst, pb < pa

/-- The structural invariant of a book. -/
def BookInv (b : Book) : Prop := LaddersInv b.bids b.asks

/-!  Lemmas about the matching loop, leading to the never-crossed result.  -/

theorem matchQueue_nonempty_remaining (price takerUser market : Nat)
    (queue : List Order) :
    ∀ r fills q0 qs,
      (matchQueue r price takerUser market queue fills).2.1 = q0 :: qs →
      (matchQueue r price takerUser market queue fills).1 = 0 := by
  induction queue with
  | nil =>
    intro r fills q0 qs h
    simp [matchQueue] at h
  | cons maker qrest ih =>
    intro r fills q0 qs h
    by_cases hr : r = 0
    · simp [matchQueue, hr]
    · by_cases hm : maker.remaining ≤ r
      · simp only [matchQueue, if_neg hr, if_pos hm] at h ⊢
        exact ih _ _ _ _ h
      · simp [matchQueue, hr, hm]

theorem matchLoop_opposite_suffix (side : Side) (tp takerUser market : Nat)
    (opp : Ladder) :
    ∀ r fills,
      ((matchLoop side tp takerUser market r opp fills).opposite.map Prod.fst) <:+
        (opp.map Prod.fst) := by
  induction opp with
  | nil =>
    intro r fills
    simp [matchLoop]
  | cons lv rest ih =>
    intro r fills
    obtain ⟨price, queue⟩ := lv
    by_cases hr : r = 0
    · simp [matchLoop, hr]
    · cases hc : crosses side tp price with
      | false => simp [matchLoop, hr, hc]
      | true =>
        simp only [matchLoop, if_neg hr, hc, if_pos]
        rcases hq : matchQueue r price takerUser market queue fills with ⟨r2, q2, fills2⟩
        cases q2 with
        | nil =>
          exact (ih r2 fills2).trans (List.suffix_cons price (rest.map Prod.fst))
        | cons o0 os =>
          exact List.suffix_refl _

theorem matchLoop_stops_uncrossed (side : Side) (tp takerUser market : Nat)
    (opp : Ladder) :
    ∀ r fills p q t,
      (matchLoop side tp takerUser market r opp fills).opposite = (p, q) :: t →
      (matchLoop side tp takerUser market r opp fills).remaining ≠ 0 →
      crosses side tp p = false := by
  induction opp with
  | nil =>
    intro r fills p q t h hn
    simp [matchLoop] at h
  | cons lv rest ih =>
    intro r fills p q t h hn
    obtain ⟨price, queue⟩ := lv
    by_cases hr : r = 0
    · simp [matchLoop, hr] at hn
    · cases hc : crosses side tp price with
      | false =>
        simp only [matchLoop, if_neg hr, hc, Bool.false_eq_true, if_false,
          List.cons.injEq, Prod.mk.injEq] at h
        rw [← h.1.1]
        exact hc
      | true =>
        simp only [matchLoop, if_neg hr, hc, if_pos] at h hn
        rcases hq : matchQueue r price takerUser market queue fills with ⟨r2, q2, fills2⟩
        rw [hq] at h hn
        cases q2 with
        | nil => exact ih r2 fills2 p q t h hn
        | cons o0 os =>
          have h0 : (matchQueue r price takerUser market queue fills).1 = 0 :=
            matchQueue_nonempty_remaining price takerUser market queue r fills o0 os
              (by rw [hq])
          rw [hq] at h0
          simp at h0 hn
          exact absurd h0 hn

theorem insertLevel_prices_mem (side : Side) (price : Nat) (o : Order)
    (l : Ladder) :
    ∀ p ∈ (insertLevel side price o l).map Prod.fst,
      p = price ∨ p ∈ l.map Prod.fst := by
  induction l with
  | nil =>
    intro p hp
    simp [insertLevel] at hp
    exact Or.inl hp
  | cons lv rest ih =>
    obtain ⟨p0, q0⟩ := lv
    intro p hp
    by_cases h0 : p0 = price
    · simp only [insertLevel, if_pos h0, List.map_cons, List.mem_cons] at hp
      rcases hp with hp | hp
      · exact Or.inr (by simp [hp])
      · exact Or.inr (by simp [hp])
    · by_cases hb : priceBetter side price p0 = true
      · simp only [insertLevel, if_neg h0, hb, if_pos, List.map_cons,
          List.mem_cons] at hp
        rcases hp with hp | hp | hp
        · exact Or.inl hp
        · exact Or.inr (by simp [hp])
        · exact Or.inr (by simp [hp])
      · simp only [insertLevel, if_neg h0, hb, Bool.false_eq_true, if_false,
          List.map_cons, List.mem_cons] at hp
        rcases hp with hp | hp
        · exact Or.inr (by simp [hp])
        · rcases ih p hp with h | h
          · exact Or.inl h
          · exact Or.inr (by simp [h])

theorem insertLevel_sorted_asc (price : Nat) (o : Order) (l : Ladder)
    (hs : List.Sorted (fun a c => a < c) (l.map Prod.fst)) :
    List.Sorted (fun a c => a < c) ((insertLevel .ask price o l).map Prod.fst) := by
  induction l with
  | nil => simp [insertLevel]
  | cons lv rest ih =>
    obtain ⟨p0, q0⟩ := lv
    simp only [List.map_cons, List.sorted_cons] at hs
    obtain ⟨hall, hrest⟩ := hs
    by_cases h0 : p0 = price
    · simp only [insertLevel, if_pos h0, List.map_cons, List.sorted_cons]
      exact ⟨hall, hrest⟩
    · by_cases hb : priceBetter .ask price p0 = true
      · have hlt : price < p0 := by simpa [priceBetter] using hb
        simp only [insertLevel, if_neg h0, hb, if_pos, List.map_cons,
          List.sorted_cons]
        exact ⟨by
          intro y hy
          rcases List.mem_cons.mp hy with hy | hy
          · omega
          · exact lt_trans hlt (hall y hy), hall, hrest⟩
      · have hnlt : ¬ price < p0 := by simpa [priceBetter] using hb
        have hlt : p0 < price := by omega
        simp only [insertLevel, if_neg h0, hb, Bool.false_eq_true, if_false,
          List.map_cons, List.sorted_cons]
        constructor
        · intro y hy
          rcases insertLevel_prices_mem .ask price o rest y hy with h | h
          · omega
          · exact hall y h
        · exact ih hrest

theorem insertLevel_sorted_desc (price : Nat) (o : Order) (l : Ladder)
    (hs : List.Sorted (fun a c => c < a) (l.map Prod.fst)) :
    List.Sorted (fun a c => c < a) ((insertLevel .bid price o l).map Prod.fst) := by
  induction l with
  | nil => simp [insertLevel]
  | cons lv rest ih =>
    obtain ⟨p0, q0⟩ := lv
    simp only [List.map_cons, List.sorted_cons] at hs
    obtain ⟨hall, hrest⟩ := hs
    by_cases h0 : p0 = price
    · simp only [insertLevel, if_pos h0, List.map_cons, List.sorted_cons]
      exact ⟨hall, hrest⟩
    · by_cases hb : priceBetter .bid price p0 = true
      · have hlt : p0 < price := by simpa [priceBetter] using hb
        simp only [insertLevel, if_neg h0, hb, if_pos, List.map_cons,
          List.sorted_cons]
        exact ⟨by
          intro y hy
          rcases List.mem_cons.mp hy with hy | hy
          · omega
          · exact lt_trans (hall y hy) hlt, hall, hrest⟩
      · have hnlt : ¬ p0 < price := by simpa [priceBetter] using hb
        have hlt : price < p0 := by omega
        simp only [insertLevel, if_neg h0, hb, Bool.false_eq_true, if_false,
          List.map_cons, List.sorted_cons]
        constructor
        · intro y hy
          rcases insertLevel_prices_mem .bid price o rest y hy with h | h
          · omega
          · exact hall y h
        · exact ih hrest

theorem laddersInv_shrink_asks (bids asks la : Ladder) (h : LaddersInv bids asks)
    (hs : (la.map Prod.fst) <:+ (asks.map Prod.fst)) : LaddersInv bids la := by
  refine ⟨h.bids_sorted, ?_, ?_⟩
  · exact h.asks_sorted.sublist hs.sublist
  · intro pb hpb pa hpa
    exact h.not_crossed pb hpb pa (hs.subset hpa)

theorem laddersInv_shrink_bids (bids asks lb : Ladder) (h : LaddersInv bids asks)
    (hs : (lb.map Prod.fst) <:+ (bids.map Prod.fst)) : LaddersInv lb asks := by
  refine ⟨?_, h.asks_sorted, ?_⟩
  · exact h.bids_sorted.sublist hs.sublist
  · intro pb hpb pa hpa
    exact h.not_crossed pb (hs.subset hpb) pa hpa

theorem laddersInv_rest_bid (bids asks la : Ladder) (price : Nat) (o : Order)
    (h : LaddersInv bids asks)
    (hs : la.map Prod.fst <:+ asks.map Prod.fst)
    (hhead : ∀ pa qa t, la = (pa, qa) :: t → price < pa) :
    LaddersInv (insertLevel .bid price o bids) la := by
  have hbase : LaddersInv bids la := laddersInv_shrink_asks bids asks la h hs
  refine ⟨insertLevel_sorted_desc price o bids h.bids_sorted, hbase.asks_sorted, ?_⟩
  intro pb hpb pa hpa
  rcases insertLevel_prices_mem .bid price o bids pb hpb with hpb1 | hpb1
  · subst hpb1
    cases la with
    | nil => simp at hpa
    | cons lv t =>
      obtain ⟨pa0, qa0⟩ := lv
      have hlt : pb < pa0 := hhead pa0 qa0 t rfl
      simp only [List.map_cons, List.mem_cons] at hpa
      rcases hpa with h1 | h1
      · omega
      · have hsort := hbase.asks_sorted
        simp only [List.map_cons, List.sorted_cons] at hsort
        have := hsort.1 pa h1
        omega
  · exact hbase.not_crossed pb hpb1 pa hpa

theorem laddersInv_rest_ask (bids asks lb : Ladder) (price : Nat) (o : Order)
    (h : LaddersInv bids asks)
    (hs : lb.map Prod.fst <:+ bids.map Prod.fst)
    (hhead : ∀ pb qb t, lb = (pb, qb) :: t → pb < price) :
    LaddersInv lb (insertLevel .ask price o asks) := by
  have hbase : LaddersInv lb asks := laddersInv_shrink_bids bids asks lb h hs
  refine ⟨hbase.bids_sorted, insertLevel_sorted_asc price o asks h.asks_sorted, ?_⟩
  intro pb hpb pa hpa
  rcases insertLevel_prices_mem .ask price o asks pa hpa with hpa1 | hpa1
  · subst hpa1
    cases lb with
    | nil => simp at hpb
    | cons lv t =>
      obtain ⟨pb0, qb0⟩ := lv
      have hlt : pb0 < pa := hhead pb0 qb0 t rfl
      simp only [List.map_cons, List.mem_cons] at hpb
      rcases hpb with h1 | h1
      · omega
      · have hsort := hbase.bids_sorted
        simp only [List.map_cons, List.sorted_cons] at hsort
        have := hsort.1 pb h1
        omega
  · exact hbase.not_crossed pb hpb pa hpa1

theorem place_ok_inv (b : Book) (sub : Submission) (out : PlacementOutcome)
    (b2 : Book) (hinv : BookInv b) (h : b.place sub = .ok (out, b2)) :
    BookInv b2 := by
  unfold Book.place at h
  by_cases hbad : sub.amount = 0 ∨ sub.price = 0
  · rw [if_pos hbad] at h
    cases h
  · rw [if_neg hbad] at h
    cases hside : sub.side with
    | bid =>
      simp only [hside] at h
      by_cases hrem :
          (matchLoop Side.bid sub.price sub.user b.market sub.amount b.asks []).remaining = 0
      · rw [if_pos hrem] at h
        simp only [Except.ok.injEq, Prod.mk.injEq] at h
        obtain ⟨-, hb2⟩ := h
        subst hb2
        exact laddersInv_shrink_asks b.bids b.asks _ hinv
          (matchLoop_opposite_suffix .bid sub.price sub.user b.market b.asks
            sub.amount [])
      · rw [if_neg hrem] at h
        simp only [Except.ok.injEq, Prod.mk.injEq] at h
        obtain ⟨-, hb2⟩ := h
        subst hb2
        refine laddersInv_rest_bid b.bids b.asks _ sub.price _ hinv
          (matchLoop_opposite_suffix .bid sub.price sub.user b.market b.asks
            sub.amount []) ?_
        intro pa qa t hla
        have hcross := matchLoop_stops_uncrossed .bid sub.price sub.user b.market
          b.asks sub.amount [] pa qa t hla hrem
        simp [crosses] at hcross
        omega
    | ask =>
      simp only [hside] at h
      by_cases hrem :
          (matchLoop Side.ask sub.price sub.user b.market sub.amount b.bids []).remaining = 0
      · rw [if_pos hrem] at h
        simp only [Except.ok.injEq, Prod.mk.injEq] at h
        obtain ⟨-, hb2⟩ := h
        subst hb2
        exact laddersInv_shrink_bids b.bids b.asks _ hinv
          (matchLoop_opposite_suffix .ask sub.price sub.user b.market b.bids
            sub.amount [])
      · rw [if_neg hrem] at h
        simp only [Except.ok.injEq, Prod.mk.injEq] at h
        obtain ⟨-, hb2⟩ := h
        subst hb2
        refine laddersInv_rest_ask b.bids b.asks _ sub.price _ hinv
          (matchLoop_opposite_suffix .ask sub.price sub.user b.market b.bids
            sub.amount []) ?_
        intro pb qb t hlb
        have hcross := matchLoop_stops_uncrossed .ask sub.price sub.user b.market
          b.bids sub.amount [] pb qb t hlb hrem
        simp [crosses] at hcross
        omega

theorem bookInv_new (market : Address) : BookInv (Book.new market) :=
  ⟨by simp [Book.new, bidPrices], by simp [Book.new, askPrices],
   by intro pb hpb pa hpa; simp [Book.new] at hpb⟩

theorem placeAll_inv (subs : List Submission) (b : Book) (h : BookInv b) :
    BookInv (b.placeAll subs) := by
  induction subs generalizing b with
  | nil => simpa [Book.placeAll] using h
  | cons sub rest ih =>
    simp only [Book.placeAll]
    cases hp : b.place sub with
    | ok ob2 =>
      obtain ⟨out, b2⟩ := ob2
      exact ih b2 (place_ok_inv b sub out b2 h hp)
    | error e => exact ih b h

/-- C6: after any sequence of `place` operations on a fresh book, the
resting book is never crossed: one side is empty, or the best bid price is
strictly below the best ask price. -/
theorem c6_never_crossed (market : Address) (subs : List Submission) :
    ((Book.new market).placeAll subs).bids = [] ∨
    ((Book.new market).placeAll subs).asks = [] ∨
    ∃ pb pa, ((Book.new market).placeAll subs).bestBid = some pb ∧
      ((Book.new market).placeAll subs).bestAsk = some pa ∧ pb < pa := by
  have hinv : LaddersInv ((Book.new market).placeAll subs).bids
      ((Book.new market).placeAll subs).asks :=
    placeAll_inv subs (Book.new market) (bookInv_new market)
  cases hbids : ((Book.new market).placeAll subs).bids with
  | nil => exact Or.inl rfl
  | cons lvb tb =>
    cases hasks : ((Book.new market).placeAll subs).asks with
    | nil => exact Or.inr (Or.inl rfl)
    | cons lva ta =>
      refine Or.inr (Or.inr ⟨lvb.1, lva.1, ?_, ?_, ?_⟩)
      · simp [Book.bestBid, bidPrices, hbids]
      · simp [Book.bestAsk, askPrices, hasks]
      · refine hinv.not_crossed lvb.1 ?_ lva.1 ?_
        · rw [hbids]
          simp
        · rw [hasks]
          simp
